import Mathlib

/-!
Verification of the resumable agent execution engine specification against the
week-5-langchain repository.

The repository consists of demo and exercise scripts driving the LangChain /
LangGraph agent runtime.  Two helpers are plain Python code inside the
repository and are embedded directly from their sources:

* `retry_with_backoff` from `src/demos/5-Friday/code/demo_02_error_handling.py`
* `safe_calculation` from `src/demos/5-Friday/code/demo_02_error_handling.py`

The engine itself (step loop, middleware, interrupt / resume protocol,
checkpoint store) is the library runtime configured by the demos; its code is
not part of the repository, so it is modelled from the specification
(`spec.md`, sections 3, 4 and 6), as flagged on each such definition.
-/

namespace CalcTool

/-- Arithmetic evaluation error: the embedding of the two exception classes
`safe_calculation` distinguishes (`ZeroDivisionError` and every other
evaluation failure, which for the whitelisted character set is a syntax
error). -/
inductive CalcErr where
  | zeroDiv
  | synErr
deriving DecidableEq, Repr

/-- Token stream of the arithmetic fragment reachable through
`safe_calculation`'s character whitelist `0123456789+-*/.() `:
numeric literals, `+ - * / // **` and parentheses. -/
inductive Tok where
  | num (v : ℚ)
  | plus
  | minus
  | star
  | slash
  | dstar
  | dslash
  | lpar
  | rpar
deriving DecidableEq, Repr

/-- Numeric value of a digit list (most significant first). -/
def digitsVal (ds : List Char) : Nat :=
  ds.foldl (fun a c => a * 10 + (c.toNat - 48)) 0

/-- Split a leading run of digits off a character list. -/
def takeDigits : List Char → List Char × List Char
  | [] => ([], [])
  | c :: cs =>
    if c.isDigit then
      let p := takeDigits cs
      (c :: p.1, p.2)
    else ([], c :: cs)

/-- Lex one Python numeric literal (`12`, `12.`, `.5`, `1.25`); `none` when no
literal starts here (a lone dot). -/
def lexNum (cs : List Char) : Option (ℚ × List Char) :=
  let p := takeDigits cs
  match p.2 with
  | '.' :: r2 =>
    let q := takeDigits r2
    if p.1.isEmpty && q.1.isEmpty then none
    else some ((digitsVal p.1 : ℚ) + (digitsVal q.1 : ℚ) / ((10 : ℚ) ^ q.1.length), q.2)
  | _ => if p.1.isEmpty then none else some ((digitsVal p.1 : ℚ), p.2)

/-- Tokenizer; fuel bounds the recursion (each step consumes at least one
character, so `cs.length + 1` fuel always suffices). `none` is a lexical
error. -/
def lexGo : Nat → List Char → Option (List Tok)
  | _, [] => some []
  | 0, _ :: _ => none
  | fuel + 1, c :: cs =>
    if c = ' ' then lexGo fuel cs
    else if c = '+' then (lexGo fuel cs).map (Tok.plus :: ·)
    else if c = '-' then (lexGo fuel cs).map (Tok.minus :: ·)
    else if c = '*' then
      match cs with
      | '*' :: cs2 => (lexGo fuel cs2).map (Tok.dstar :: ·)
      | _ => (lexGo fuel cs).map (Tok.star :: ·)
    else if c = '/' then
      match cs with
      | '/' :: cs2 => (lexGo fuel cs2).map (Tok.dslash :: ·)
      | _ => (lexGo fuel cs).map (Tok.slash :: ·)
    else if c = '(' then (lexGo fuel cs).map (Tok.lpar :: ·)
    else if c = ')' then (lexGo fuel cs).map (Tok.rpar :: ·)
    else if c.isDigit || c = '.' then
      match lexNum (c :: cs) with
      | some (v, rest) => (lexGo fuel rest).map (Tok.num v :: ·)
      | none => none
    else none

/-- Tokenize a whole string. -/
def lex (s : String) : Option (List Tok) := lexGo (s.data.length + 1) s.data

mutual

/-- Parse and evaluate an additive expression (`term (('+'|'-') term)*`). -/
def pExpr : Nat → List Tok → Except CalcErr (ℚ × List Tok)
  | 0, _ => .error .synErr
  | fuel + 1, ts => do
    let p ← pTerm fuel ts
    pExprRest fuel p.1 p.2

/-- Tail of an additive expression, folding into the accumulator. -/
def pExprRest : Nat → ℚ → List Tok → Except CalcErr (ℚ × List Tok)
  | 0, _, _ => .error .synErr
  | fuel + 1, acc, ts =>
    match ts with
    | Tok.plus :: ts1 => do
      let p ← pTerm fuel ts1
      pExprRest fuel (acc + p.1) p.2
    | Tok.minus :: ts1 => do
      let p ← pTerm fuel ts1
      pExprRest fuel (acc - p.1) p.2
    | _ => .ok (acc, ts)

/-- Parse and evaluate a multiplicative expression
(`unary (('*'|'/'|'//') unary)*`); `/` is exact division and `//` is floor
division, both raising `zeroDiv` on a zero divisor as Python's `eval` does. -/
def pTerm : Nat → List Tok → Except CalcErr (ℚ × List Tok)
  | 0, _ => .error .synErr
  | fuel + 1, ts => do
    let p ← pUnary fuel ts
    pTermRest fuel p.1 p.2

/-- Tail of a multiplicative expression. -/
def pTermRest : Nat → ℚ → List Tok → Except CalcErr (ℚ × List Tok)
  | 0, _, _ => .error .synErr
  | fuel + 1, acc, ts =>
    match ts with
    | Tok.star :: ts1 => do
      let p ← pUnary fuel ts1
      pTermRest fuel (acc * p.1) p.2
    | Tok.slash :: ts1 => do
      let p ← pUnary fuel ts1
      if p.1 = 0 then .error .zeroDiv else pTermRest fuel (acc / p.1) p.2
    | Tok.dslash :: ts1 => do
      let p ← pUnary fuel ts1
      if p.1 = 0 then .error .zeroDiv
      else pTermRest fuel ((Rat.floor (acc / p.1) : ℚ)) p.2
    | _ => .ok (acc, ts)

/-- Unary plus/minus layer (binds looser than `**`, as in Python). -/
def pUnary : Nat → List Tok → Except CalcErr (ℚ × List Tok)
  | 0, _ => .error .synErr
  | fuel + 1, ts =>
    match ts with
    | Tok.minus :: ts1 => do
      let p ← pUnary fuel ts1
      .ok (-p.1, p.2)
    | Tok.plus :: ts1 => pUnary fuel ts1
    | _ => pPow fuel ts

/-- Power layer, right associative; only integral exponents are in the
modelled fragment (Python evaluates fractional exponents in floating point,
which is outside this exact-arithmetic model).  `0 ** negative` raises
`ZeroDivisionError` in Python and maps to `zeroDiv` here. -/
def pPow : Nat → List Tok → Except CalcErr (ℚ × List Tok)
  | 0, _ => .error .synErr
  | fuel + 1, ts => do
    let p ← pAtom fuel ts
    match p.2 with
    | Tok.dstar :: ts2 => do
      let q ← pUnary fuel ts2
      if q.1.den = 1 then
        if p.1 = 0 && q.1.num < 0 then .error .zeroDiv
        else .ok (p.1 ^ q.1.num, q.2)
      else .error .synErr
    | _ => .ok (p.1, p.2)

/-- Atom: a numeric literal or a parenthesized expression. -/
def pAtom : Nat → List Tok → Except CalcErr (ℚ × List Tok)
  | 0, _ => .error .synErr
  | _ + 1, Tok.num v :: ts => .ok (v, ts)
  | fuel + 1, Tok.lpar :: ts => do
    let p ← pExpr fuel ts
    match p.2 with
    | Tok.rpar :: ts2 => .ok (p.1, ts2)
    | _ => .error .synErr
  | _ + 1, _ => .error .synErr

end

/-- Evaluate a full token stream; trailing tokens are a syntax error. -/
def evalTokens (ts : List Tok) : Except CalcErr ℚ := do
  let p ← pExpr (8 * ts.length + 8) ts
  if p.2.isEmpty then .ok p.1 else .error .synErr

/-- Embedding of `eval(expression, {"__builtins__": {}}, {})` restricted to the
whitelisted arithmetic fragment of `safe_calculation`. -/
def evalExpr (s : String) : Except CalcErr ℚ :=
  match lex s with
  | some ts => evalTokens ts
  | none => .error .synErr

/-- Character whitelist from `safe_calculation`
(`allowed = set("0123456789+-*/.() ")`). -/
def allowedChars : List Char := "0123456789+-*/.() ".data

/-- Rendering of the numeric result (stands in for Python's f-string
rendering of the value). -/
def ratRepr (q : ℚ) : String := toString q

/-- Embedding of the tool `safe_calculation` from
`src/demos/5-Friday/code/demo_02_error_handling.py` (lines 270-288): whitelist
check first, then guarded evaluation mapping `ZeroDivisionError` and any other
evaluation failure to `ERROR:` strings. -/
def safe_calculation (expression : String) : String :=
  if expression.data.all (fun c => allowedChars.contains c) then
    match evalExpr expression with
    | .ok result => expression ++ " = " ++ ratRepr result
    | .error .zeroDiv => "ERROR: Division by zero is not allowed."
    | .error .synErr => "ERROR: Could not evaluate expression: SyntaxError"
  else
    "ERROR: Invalid characters in expression. Only numbers and basic operators allowed."

end CalcTool

namespace RetryLogic

/-- Observable outcome of a retry loop: the returned string, the number of
attempts actually made (invocations of the wrapped function), and the backoff
sleeps performed, in order. -/
structure RetryOutcome where
  result : String
  attempts : Nat
  sleeps : List ℚ
deriving DecidableEq, Repr

/-- Prepend one failed attempt (and its backoff sleep, when performed) to a
retry outcome. -/
def failedStep (sleeps : List ℚ) (o : RetryOutcome) : RetryOutcome :=
  ⟨o.result, o.attempts + 1, sleeps ++ o.sleeps⟩

/-- Loop body of `retry_with_backoff`
(`src/demos/5-Friday/code/demo_02_error_handling.py`, lines 161-183).  The
wrapped call is a deterministic stub indexed by the attempt number
(`func attempt`), `rem` is the number of loop iterations left, and
`lastErr` carries Python's `last_error` (initially `None`). -/
def retryGo (func : Nat → Except String String) (max_retries : Nat) (base_delay : ℚ) :
    Nat → Nat → Option String → RetryOutcome
  | _, 0, lastErr =>
    ⟨"FAILED after " ++ toString max_retries ++ " attempts. Last error: " ++
      lastErr.getD "None", 0, []⟩
  | attempt, rem + 1, _ =>
    match func attempt with
    | .ok r => ⟨r, 1, []⟩
    | .error e =>
      failedStep
        (if attempt < max_retries - 1 then [base_delay * 2 ^ attempt] else [])
        (retryGo func max_retries base_delay (attempt + 1) rem (some e))

/-- Embedding of `retry_with_backoff(func, args, max_retries, base_delay)`:
`for attempt in range(max_retries)` invoking the function, returning on
success, sleeping `base_delay * (2 ** attempt)` between failed attempts, and
returning a `FAILED` message when the loop ends. -/
def retry_with_backoff (func : Nat → Except String String)
    (max_retries : Nat := 3) (base_delay : ℚ := 1) : RetryOutcome :=
  retryGo func max_retries base_delay 0 max_retries none

/-- Modelled from the spec: the per-attempt backoff delay of the library
`ModelRetryMiddleware` / `RetryMiddleware` (not part of the repository;
configured in `src/demos/additional/demo_x_middleware.py` lines 117-124) —
exponential backoff `initialDelay * backoffFactor^attempt`, capped at
`maxDelay` (spec section 4.2; jitter disabled here, it only adds bounded
noise below the cap). -/
def modelRetryDelay (initialDelay backoffFactor maxDelay : ℚ) (attempt : Nat) : ℚ :=
  min (initialDelay * backoffFactor ^ attempt) maxDelay

end RetryLogic

namespace Engine

/-- Modelled from the spec: message roles (spec section 3, "Message: a
role-tagged unit (user, assistant, tool-result)"). -/
inductive Role where
  | user
  | assistant
  | toolResult
deriving DecidableEq, Repr

/-- Modelled from the spec: a structured tool-call request carried by an
assistant message (tool name plus arguments). -/
structure ToolCall where
  name : String
  args : List (String × String)
deriving DecidableEq, Repr

/-- Modelled from the spec: a message — role, content, and the optional
structured call requests (empty for user and tool-result messages). -/
structure Message where
  role : Role
  content : String
  toolCalls : List ToolCall
deriving DecidableEq, Repr

/-- Modelled from the spec: checkpoint status (spec section 3). -/
inductive Status where
  | running
  | interrupted
  | completed
  | failed
deriving DecidableEq, Repr

/-- Modelled from the spec: the kind of a caller decision
(approve / edit / reject). -/
inductive DecisionKind where
  | approve
  | edit
  | reject
deriving DecidableEq, BEq, Repr

/-- Modelled from the spec: a caller-supplied Decision — `approve`,
`edit` with replacement call, or `reject` with a feedback message. -/
inductive Decision where
  | approve
  | edit (call : ToolCall)
  | reject (message : String)
deriving DecidableEq, Repr

/-- Kind classifier of a decision. -/
def Decision.kind : Decision → DecisionKind
  | .approve => .approve
  | .edit _ => .edit
  | .reject _ => .reject

/-- Modelled from the spec: PendingAction — the intercepted call awaiting a
decision, the decisions the policy allows for it, and the tool calls of the
same model turn still to be processed after it is resolved. -/
structure PendingAction where
  call : ToolCall
  allowedDecisions : List DecisionKind
  remaining : List ToolCall
deriving DecidableEq, Repr

/-- Modelled from the spec: a thread checkpoint — append-only message log,
monotonically increasing step counter, status, and the optional
PendingAction (spec sections 3 and 6). -/
structure Checkpoint where
  step : Nat
  messages : List Message
  status : Status
  pending : Option PendingAction
deriving DecidableEq, Repr

/-- Modelled from the spec: the approval-policy entry for one call identity
(`{required bool, allowedDecisions []Decision}`, spec section 6). -/
structure ApprovalRule where
  required : Bool
  allowedDecisions : List DecisionKind
deriving DecidableEq, Repr

/-- Modelled from the spec: behavior on hitting a call limit —
`end` (graceful completion) or `error` (abort as Failed). -/
inductive ExitBehavior where
  | endB
  | errB
deriving DecidableEq, Repr

/-- Modelled from the spec: RunConfig — per-run model-call limit, limit exit
behavior, and the approval policy map (spec section 6; retry parameters are
modelled separately in `RetryLogic`). -/
structure RunConfig where
  runCallLimit : Option Nat
  limitExitBehavior : ExitBehavior
  approvalPolicy : List (String × ApprovalRule)
deriving DecidableEq, Repr

/-- Approval rule configured for a call identity, when any. -/
def RunConfig.ruleFor (cfg : RunConfig) (n : String) : Option ApprovalRule :=
  (cfg.approvalPolicy.find? fun p => p.1 == n).map Prod.snd

/-- Whether the approval policy gates this call identity. -/
def RunConfig.requiresApproval (cfg : RunConfig) (n : String) : Bool :=
  (cfg.ruleFor n).elim false (·.required)

/-- Decisions the policy allows for this call identity. -/
def RunConfig.allowedFor (cfg : RunConfig) (n : String) : List DecisionKind :=
  (cfg.ruleFor n).elim [] (·.allowedDecisions)

/-- Modelled from the spec: the result of one model call — response content
and zero or more requested tool calls. -/
structure ModelResult where
  content : String
  toolCalls : List ToolCall
deriving DecidableEq, Repr

/-- Modelled from the spec: the CallInvoker collaborator interface
(`InvokeModel` / `InvokeTool`, spec section 6), as a deterministic stub. -/
structure CallInvoker where
  invokeModel : List Message → ModelResult
  invokeTool : String → List (String × String) → String

/-- Modelled from the spec: InterruptDescriptor — call identity, arguments,
allowed decisions and a human-readable description (spec section 4.3). -/
structure InterruptDescriptor where
  callIdentity : String
  arguments : List (String × String)
  allowedDecisions : List DecisionKind
  description : String
deriving DecidableEq, Repr

/-- Modelled from the spec: engine error taxonomy (spec section 7), plus a
fuel-exhaustion marker that stands in for a run the bounded model cannot
finish (reported as an unrecoverable failure). -/
inductive EngineError where
  | awaitingDecision
  | notInterrupted
  | decisionNotAllowed
  | limitExceeded
  | fuelExhausted
deriving DecidableEq, Repr

/-- Modelled from the spec: the tagged result union of `Invoke` / `Resume` —
a final output, an interrupt descriptor, or a typed error. -/
inductive RunResult where
  | final (output : Message)
  | interruptedR (d : InterruptDescriptor)
  | errorR (e : EngineError)
deriving DecidableEq, Repr

/-- Record of one call actually issued to the CallInvoker collaborator. -/
inductive Issued where
  | modelCall (history : List Message)
  | toolCall (name : String) (args : List (String × String))
deriving DecidableEq, Repr

/-- Full observable outcome of one `invoke` / `resume`: the returned result,
the checkpoint written for the thread, and the calls issued to the
CallInvoker, in order. -/
structure StepOutcome where
  result : RunResult
  cp : Checkpoint
  trace : List Issued
deriving Repr

/-- Outcome of processing the tool calls of one model turn. -/
structure ToolsOut where
  cp : Checkpoint
  trace : List Issued
  interrupt : Option InterruptDescriptor
deriving Repr

/-- Modelled from the spec: process the tool calls requested by one model
turn strictly in request order (spec section 4.1).  A call gated by the
approval policy is not executed; the checkpoint becomes Interrupted with the
PendingAction set to that exact call (spec sections 4.2-4.3).  An ungated
call is issued to the CallInvoker and its result appended as a tool-result
message. -/
def processTools (ci : CallInvoker) (cfg : RunConfig) : Checkpoint → List ToolCall → ToolsOut
  | cp, [] => ⟨cp, [], none⟩
  | cp, tc :: rest =>
    if cfg.requiresApproval tc.name then
      ⟨{cp with status := .interrupted,
                pending := some ⟨tc, cfg.allowedFor tc.name, rest⟩},
       [],
       some ⟨tc.name, tc.args, cfg.allowedFor tc.name,
             "Action requires human approval: " ++ tc.name⟩⟩
    else
      let out := ci.invokeTool tc.name tc.args
      let o := processTools ci cfg
        {cp with messages := cp.messages ++ [⟨.toolResult, out, []⟩]} rest
      ⟨o.cp, .toolCall tc.name tc.args :: o.trace, o.interrupt⟩

/-- Whether the run-scoped model-call counter has reached the configured
limit. -/
def limitReached (cfg : RunConfig) (used : Nat) : Bool :=
  match cfg.runCallLimit with
  | some n => decide (n ≤ used)
  | none => false

/-- Modelled from the spec: the best available partial result used by the
`end` exit behavior — the last assistant message, when any. -/
def lastAssistant (cp : Checkpoint) : Message :=
  match (cp.messages.filter fun m =>
      match m.role with | .assistant => true | _ => false).getLast? with
  | some m => m
  | none => ⟨.assistant, "", []⟩

/-- Modelled from the spec: CallLimiter exit — `end` completes gracefully
with the best available partial result, `error` aborts the run as Failed
(spec section 4.2). -/
def exitLimit (cfg : RunConfig) (cp : Checkpoint) : StepOutcome :=
  match cfg.limitExitBehavior with
  | .endB => ⟨.final (lastAssistant cp), {cp with status := .completed, pending := none}, []⟩
  | .errB => ⟨.errorR .limitExceeded, {cp with status := .failed, pending := none}, []⟩

/-- Modelled from the spec: the ExecutionEngine step loop (spec section 4.1):
check the call limit, request a model call, complete when the model requests
no tool calls, otherwise process the requested tool calls in order and loop.
`fuel` bounds the recursion of the model; exhausting it is reported as an
unrecoverable failure. -/
def runLoop (ci : CallInvoker) (cfg : RunConfig) : Nat → Checkpoint → Nat → StepOutcome
  | 0, cp, _ => ⟨.errorR .fuelExhausted, {cp with status := .failed, pending := none}, []⟩
  | fuel + 1, cp, used =>
    if limitReached cfg used then exitLimit cfg cp
    else
      let mr := ci.invokeModel cp.messages
      let am : Message := ⟨.assistant, mr.content, mr.toolCalls⟩
      let cp1 : Checkpoint := {cp with messages := cp.messages ++ [am], step := cp.step + 1}
      if mr.toolCalls.isEmpty then
        ⟨.final am, {cp1 with status := .completed, pending := none}, [.modelCall cp.messages]⟩
      else
        let o := processTools ci cfg cp1 mr.toolCalls
        match o.interrupt with
        | some d => ⟨.interruptedR d, o.cp, .modelCall cp.messages :: o.trace⟩
        | none =>
          let r := runLoop ci cfg fuel o.cp (used + 1)
          ⟨r.result, r.cp, .modelCall cp.messages :: (o.trace ++ r.trace)⟩

/-- Checkpoint 0 of a fresh thread (created on first `invoke`). -/
def freshCheckpoint : Checkpoint := ⟨0, [], .completed, none⟩

/-- Modelled from the spec: `Invoke(threadID, input, config)` for one thread
(spec sections 4.1 and 6).  On an Interrupted thread it is the typed error
`ErrAwaitingDecision` and executes nothing; otherwise the user message is
appended and the step loop runs with a fresh run-scoped call counter. -/
def invoke (ci : CallInvoker) (cfg : RunConfig) (fuel : Nat) (cp : Checkpoint)
    (input : String) : StepOutcome :=
  if cp.status = .interrupted then ⟨.errorR .awaitingDecision, cp, []⟩
  else
    runLoop ci cfg fuel
      {cp with messages := cp.messages ++ [⟨.user, input, []⟩],
               status := .running, pending := none} 0

/-- Modelled from the spec: apply a valid decision to the pending call —
approve executes the original call, edit executes the replacement call,
reject synthesizes a rejection tool-result message and never touches the
CallInvoker (spec section 4.3). -/
def applyDecision (ci : CallInvoker) (cp : Checkpoint) (pa : PendingAction) :
    Decision → Checkpoint × List Issued
  | .approve =>
    let out := ci.invokeTool pa.call.name pa.call.args
    ({cp with messages := cp.messages ++ [⟨.toolResult, out, []⟩]},
     [.toolCall pa.call.name pa.call.args])
  | .edit c =>
    let out := ci.invokeTool c.name c.args
    ({cp with messages := cp.messages ++ [⟨.toolResult, out, []⟩]},
     [.toolCall c.name c.args])
  | .reject msg =>
    ({cp with messages := cp.messages ++ [⟨.toolResult, msg, []⟩]}, [])

/-- Modelled from the spec: `Resume(threadID, decision, config)` (spec
sections 4.1, 4.3 and 6).  A thread not in Interrupted state fails with a
typed error without mutating the checkpoint; a decision outside
`PendingAction.allowedDecisions` fails with `ErrDecisionNotAllowed` without
mutating state; otherwise the decision is applied, the remaining tool calls
of the turn are processed, and the loop continues. -/
def resume (ci : CallInvoker) (cfg : RunConfig) (fuel : Nat) (cp : Checkpoint)
    (d : Decision) : StepOutcome :=
  if cp.status = .interrupted then
    match cp.pending with
    | none => ⟨.errorR .notInterrupted, cp, []⟩
    | some pa =>
      if pa.allowedDecisions.contains d.kind then
        let p := applyDecision ci {cp with status := .running, pending := none} pa d
        let o := processTools ci cfg p.1 pa.remaining
        match o.interrupt with
        | some desc => ⟨.interruptedR desc, o.cp, p.2 ++ o.trace⟩
        | none =>
          let r := runLoop ci cfg fuel o.cp 0
          ⟨r.result, r.cp, p.2 ++ (o.trace ++ r.trace)⟩
      else ⟨.errorR .decisionNotAllowed, cp, []⟩
  else ⟨.errorR .notInterrupted, cp, []⟩

/-- One caller operation on a thread: an `invoke` with an input or a
`resume` with a decision, each with its own RunConfig and fuel. -/
inductive Op where
  | inv (input : String) (cfg : RunConfig) (fuel : Nat)
  | res (d : Decision) (cfg : RunConfig) (fuel : Nat)

/-- Apply one operation to a thread's authoritative checkpoint. -/
def applyOp (ci : CallInvoker) (cp : Checkpoint) : Op → StepOutcome
  | .inv input cfg fuel => invoke ci cfg fuel cp input
  | .res d cfg fuel => resume ci cfg fuel cp d

/-- Checkpoint after one operation. -/
def applyOpCp (ci : CallInvoker) (cp : Checkpoint) (op : Op) : Checkpoint :=
  (applyOp ci cp op).cp

/-- Checkpoint after a sequence of operations on one thread. -/
def runSeq (ci : CallInvoker) : Checkpoint → List Op → Checkpoint
  | cp, [] => cp
  | cp, op :: ops => runSeq ci (applyOpCp ci cp op) ops

/-- Messages produced by one step: the suffix the step appended past the
previous log. -/
def producedMsgs (ci : CallInvoker) (cp : Checkpoint) (op : Op) : List Message :=
  (applyOpCp ci cp op).messages.drop cp.messages.length

/-- Concatenation, in step order, of the messages produced by each step of an
operation sequence. -/
def stepConcat (ci : CallInvoker) : Checkpoint → List Op → List Message
  | _, [] => []
  | cp, op :: ops => producedMsgs ci cp op ++ stepConcat ci (applyOpCp ci cp op) ops

/-- Log-extension order: the second log is the first plus an appended
suffix. -/
def LogExtends (a b : List Message) : Prop := ∃ t, b = a ++ t

/-- PendingAction presence matches Interrupted status (the invariant of spec
section 3). -/
def pendingOk (cp : Checkpoint) : Prop :=
  cp.pending.isSome = true ↔ cp.status = .interrupted

/-- Number of model calls in an issued-call trace. -/
def modelCalls (tr : List Issued) : Nat :=
  tr.countP fun i => match i with | .modelCall _ => true | _ => false

/-- Modelled from the spec: the ConversationStore keyed by threadID (spec
section 4.4), with absent threads read as fresh. -/
def Store := String → Checkpoint

/-- Store with no thread yet invoked. -/
def emptyStore : Store := fun _ => freshCheckpoint

/-- One caller operation addressed to a thread of the store. -/
structure TOp where
  tid : String
  op : Op

/-- Modelled from the spec: ThreadScheduler semantics (spec section 4.5) — an
operation runs against its own thread's checkpoint and writes back only that
thread's entry; distinct threads share no other state. -/
def applyTOp (ci : CallInvoker) (st : Store) (t : TOp) : Store :=
  fun k => if k = t.tid then (applyOp ci (st t.tid) t.op).cp else st k

/-- Store after a serialized interleaving of per-thread operations. -/
def runTOps (ci : CallInvoker) : Store → List TOp → Store
  | st, [] => st
  | st, t :: ts => runTOps ci (applyTOp ci st t) ts

end Engine

namespace Engine

/-- True when no tool call with the given name appears in the trace. -/
def noToolNamed (n : String) (tr : List Issued) : Bool :=
  tr.all fun i => match i with | .toolCall m _ => m != n | _ => true

/-- Scripted model stub for the approval scenario of spec section 8: on a
fresh history it requests the `delete_file` tool call; once a tool-result is
present it answers with a final message and no tool calls. -/
def deleteInvoker (x : String) : CallInvoker where
  invokeModel h :=
    if h.any (fun m => match m.role with | .toolResult => true | _ => false) then
      ⟨"Done.", []⟩
    else
      ⟨"I will delete the file.", [⟨"delete_file", [("filepath", x)]⟩]⟩
  invokeTool _ _ := "File deleted."

/-- Approval policy of the HITL demos (`delete_file` gated, every decision
allowed), no call limit. -/
def hitlConfig : RunConfig :=
  ⟨none, .endB, [("delete_file", ⟨true, [.approve, .edit, .reject]⟩)]⟩

/-- First step of the scenario: `invoke("Delete file X")` on a fresh
thread. -/
def hitlStep1 (x : String) : StepOutcome :=
  invoke (deleteInvoker x) hitlConfig 10 freshCheckpoint ("Delete file " ++ x)

/-- Second step of the scenario: `resume` with a reject decision carrying a
feedback message. -/
def hitlStep2 (x m : String) : StepOutcome :=
  resume (deleteInvoker x) hitlConfig 10 (hitlStep1 x).cp (.reject m)

/-- Number of assistant messages in a log. -/
def assistantCount (ms : List Message) : Nat :=
  ms.countP fun m => match m.role with | .assistant => true | _ => false

/-- Scripted model stub that needs `goal + 1` model calls to finish: each of
the first `goal` calls requests one ungated tool call, the next call
completes. -/
def needyInvoker (goal : Nat) : CallInvoker where
  invokeModel h :=
    if assistantCount h < goal then ⟨"working", [⟨"noop", []⟩]⟩
    else ⟨"final answer", []⟩
  invokeTool _ _ := "ok"

/-- RunConfig with a run-scoped model-call limit and no approval gating. -/
def limitConfig (n : Nat) (b : ExitBehavior) : RunConfig := ⟨some n, b, []⟩

end Engine

namespace CalcTool

/-- Decidable equality for evaluation outcomes, used to evaluate the claims
on concrete inputs. -/
instance : DecidableEq (Except CalcErr ℚ) := fun a b =>
  match a, b with
  | .ok x, .ok y => decidable_of_iff (x = y) (by simp)
  | .error x, .error y => decidable_of_iff (x = y) (by simp)
  | .ok _, .error _ => isFalse (by simp)
  | .error _, .ok _ => isFalse (by simp)

/-- C10: for every input string, `safe_calculation` returns a string and
never raises: any character outside the whitelist `0123456789+-*/.() ` yields
the invalid-characters ERROR message without evaluating the expression; a
division by zero (concretely `100 / 0`, and in general any whitelisted input
whose evaluation raises `ZeroDivisionError`) yields the division-by-zero
ERROR message instead of propagating the exception; and every output is
either an `ERROR: ` message or the rendered `expression = value` result. -/
theorem safe_calculation_never_raises (s : String) :
    (s.data.all (fun c => allowedChars.contains c) = false →
      safe_calculation s =
        "ERROR: Invalid characters in expression. Only numbers and basic operators allowed.") ∧
    safe_calculation "100 / 0" = "ERROR: Division by zero is not allowed." ∧
    (s.data.all (fun c => allowedChars.contains c) = true →
      evalExpr s = .error .zeroDiv →
      safe_calculation s = "ERROR: Division by zero is not allowed.") ∧
    ((safe_calculation s).data.take 7 = "ERROR: ".data ∨
      ∃ r : ℚ, safe_calculation s = s ++ " = " ++ ratRepr r) := by
  have hTrue : ∀ (_ : (s.data.all fun c => allowedChars.contains c) = true),
      safe_calculation s = match evalExpr s with
        | .ok result => s ++ " = " ++ ratRepr result
        | .error .zeroDiv => "ERROR: Division by zero is not allowed."
        | .error .synErr => "ERROR: Could not evaluate expression: SyntaxError" := by
    intro h
    simp only [safe_calculation]
    rw [if_pos h]
  have hFalse : ∀ (_ : (s.data.all fun c => allowedChars.contains c) = false),
      safe_calculation s =
        "ERROR: Invalid characters in expression. Only numbers and basic operators allowed." := by
    intro h
    simp only [safe_calculation]
    rw [if_neg (by rw [h]; exact Bool.false_ne_true)]
  refine ⟨hFalse, by decide, ?_, ?_⟩
  · intro h1 h2
    rw [hTrue h1, h2]
  · by_cases h : (s.data.all fun c => allowedChars.contains c) = true
    · rw [hTrue h]
      cases he : evalExpr s with
      | ok r => exact Or.inr ⟨r, rfl⟩
      | error e =>
        cases e
        · exact Or.inl (by
            show ("ERROR: Division by zero is not allowed.").data.take 7 = "ERROR: ".data
            decide)
        · exact Or.inl (by
            show ("ERROR: Could not evaluate expression: SyntaxError").data.take 7 = "ERROR: ".data
            decide)
    · have h0 : (s.data.all fun c => allowedChars.contains c) = false := by
        cases hb : s.data.all fun c => allowedChars.contains c
        · rfl
        · exact absurd hb h
      rw [hFalse h0]
      exact Or.inl (by decide)


/-- Witness for C10 at concrete inputs: a non-whitelisted input and a
whitelisted division by zero. -/
theorem safe_calculation_never_raises_w :
    safe_calculation "2+2a" =
      "ERROR: Invalid characters in expression. Only numbers and basic operators allowed." ∧
    safe_calculation "1/0" = "ERROR: Division by zero is not allowed." :=
  ⟨(safe_calculation_never_raises "2+2a").1 (by decide),
   (safe_calculation_never_raises "1/0").2.2.1 (by decide) (by decide)⟩

end CalcTool


namespace RetryLogic

/-- Shift of the geometric sleep schedule by one attempt. -/
theorem geomShift (d : ℚ) (k attempt : Nat) :
    (List.range (k + 1)).map (fun i => d * 2 ^ (attempt + i)) =
      d * 2 ^ attempt :: (List.range k).map (fun i => d * 2 ^ (attempt + 1 + i)) := by
  rw [List.range_succ_eq_map, List.map_cons, List.map_map]
  refine congrArg₂ _ (by rw [Nat.add_zero]) ?_
  refine List.map_congr_left fun i _ => ?_
  simp only [Function.comp_apply, Nat.succ_eq_add_one]
  rw [show attempt + (i + 1) = attempt + 1 + i from by omega]

/-- Characterization of the retry loop on a stub that fails for the first `k`
attempts from `attempt` on and succeeds at attempt `attempt + k`: it returns
the success value after exactly `k + 1` invocations, having slept the
geometric backoff schedule between the failed attempts. -/
theorem retryGo_spec (func : Nat → Except String String) (mr : Nat) (d : ℚ)
    (v : String) :
    ∀ k attempt rem lastErr, k < rem → attempt + k < mr →
    (∀ i, i < k → ∃ e, func (attempt + i) = .error e) →
    func (attempt + k) = .ok v →
    retryGo func mr d attempt rem lastErr =
      ⟨v, k + 1, (List.range k).map fun i => d * 2 ^ (attempt + i)⟩ := by
  intro k
  induction k with
  | zero =>
    intro attempt rem lastErr hrem _ _ hok
    simp only [Nat.add_zero] at hok
    match rem, hrem with
    | r + 1, _ =>
      simp only [retryGo, hok]
      simp
  | succ k ih =>
    intro attempt rem lastErr hrem hmr hfail hok
    match rem, hrem with
    | r + 1, hrem =>
      obtain ⟨e, he⟩ := hfail 0 (Nat.succ_pos k)
      simp only [Nat.add_zero] at he
      have hrec := ih (attempt + 1) r (some e) (by omega) (by omega)
        (fun i hi => by
          obtain ⟨e2, he2⟩ := hfail (i + 1) (by omega)
          exact ⟨e2, by rw [show attempt + 1 + i = attempt + (i + 1) from by omega]; exact he2⟩)
        (by rw [show attempt + 1 + k = attempt + (k + 1) from by omega]; exact hok)
      have hlt : attempt < mr - 1 := by omega
      simp only [retryGo, he, hrec, failedStep, if_pos hlt]
      rw [geomShift]
      simp

/-- C6: a call whose invoker fails exactly `k < maxRetries` times and then
succeeds is attempted exactly `k + 1` times by `retry_with_backoff`, and the
outcome is the single success value — the failed attempts contribute no
duplicate results. -/
theorem retry_attempts_exact (func : Nat → Except String String)
    (k max_retries : Nat) (base_delay : ℚ) (v : String)
    (hk : k < max_retries)
    (hfail : ∀ i, i < k → ∃ e, func i = .error e)
    (hok : func k = .ok v) :
    (retry_with_backoff func max_retries base_delay).attempts = k + 1 ∧
    (retry_with_backoff func max_retries base_delay).result = v := by
  have h := retryGo_spec func max_retries base_delay v k 0 max_retries none
    hk (by omega) (fun i hi => by simpa using hfail i hi) (by simpa using hok)
  rw [retry_with_backoff, h]
  exact ⟨rfl, rfl⟩

/-- Witness for C6: a stub failing twice then succeeding, with
`max_retries = 3`, is invoked exactly three times and returns the success
value. -/
theorem retry_attempts_exact_w :
    (retry_with_backoff (fun i => if i < 2 then .error "boom" else .ok "ok") 3 1).attempts
        = 2 + 1 ∧
    (retry_with_backoff (fun i => if i < 2 then .error "boom" else .ok "ok") 3 1).result
        = "ok" :=
  retry_attempts_exact (fun i => if i < 2 then .error "boom" else .ok "ok") 2 3 1 "ok"
    (by omega)
    (fun i hi => ⟨"boom", by simp [hi]⟩)
    (by simp)

/-- C7: in the source helper `retry_with_backoff` the delay slept before
attempt `i + 1` of a failing call is exactly `base_delay * 2 ^ i`
(exponential backoff with factor 2, as in the `1s, 2s, 4s` comment), and in
the spec-modelled library retry middleware the delay
`initialDelay * backoffFactor ^ i` is capped so it never exceeds
`maxDelay`. -/
theorem retry_backoff_delays (func : Nat → Except String String)
    (k max_retries : Nat) (base_delay : ℚ) (v : String)
    (hk : k < max_retries)
    (hfail : ∀ i, i < k → ∃ e, func i = .error e)
    (hok : func k = .ok v) :
    (retry_with_backoff func max_retries base_delay).sleeps =
      (List.range k).map (fun i => base_delay * 2 ^ i) ∧
    (∀ initialDelay backoffFactor maxDelay : ℚ, ∀ i : Nat,
      modelRetryDelay initialDelay backoffFactor maxDelay i ≤ maxDelay ∧
      (initialDelay * backoffFactor ^ i ≤ maxDelay →
        modelRetryDelay initialDelay backoffFactor maxDelay i =
          initialDelay * backoffFactor ^ i)) := by
  constructor
  · have h := retryGo_spec func max_retries base_delay v k 0 max_retries none
      hk (by omega) (fun i hi => by simpa using hfail i hi) (by simpa using hok)
    rw [retry_with_backoff, h]
    show List.map (fun i => base_delay * 2 ^ (0 + i)) (List.range k) =
      List.map (fun i => base_delay * 2 ^ i) (List.range k)
    exact List.map_congr_left fun i _ => by rw [Nat.zero_add]
  · intro initialDelay backoffFactor maxDelay i
    exact ⟨min_le_right _ _, fun h => min_eq_left h⟩

/-- Witness for C7: with `base_delay = 1` and two failures the recorded
sleeps are `1s, 2s`, and a capped middleware delay stays below the cap. -/
theorem retry_backoff_delays_w :
    (retry_with_backoff (fun i => if i < 2 then .error "boom" else .ok "ok") 3 1).sleeps
        = (List.range 2).map (fun i => (1 : ℚ) * 2 ^ i) ∧
    modelRetryDelay 1 2 60 10 ≤ 60 :=
  have h := retry_backoff_delays (fun i => if i < 2 then .error "boom" else .ok "ok") 2 3 1 "ok"
    (by omega)
    (fun i hi => ⟨"boom", by simp [hi]⟩)
    (by simp)
  ⟨h.1, (h.2 1 2 60 10).1⟩

end RetryLogic

namespace Engine

/-- C8: calling `invoke` on a thread whose latest checkpoint is Interrupted
returns the typed error `ErrAwaitingDecision`, leaves the checkpoint exactly
as it was, and issues no call to the CallInvoker (no step executes). -/
theorem invoke_on_interrupted_err (ci : CallInvoker) (cfg : RunConfig)
    (fuel : Nat) (cp : Checkpoint) (input : String)
    (h : cp.status = .interrupted) :
    invoke ci cfg fuel cp input = ⟨.errorR .awaitingDecision, cp, []⟩ := by
  rw [invoke, if_pos h]

/-- Witness for C8: a concrete Interrupted checkpoint rejects `invoke`. -/
theorem invoke_on_interrupted_err_w :
    invoke (deleteInvoker "X") hitlConfig 5
        ⟨1, [], .interrupted, some ⟨⟨"delete_file", []⟩, [.approve], []⟩⟩ "hi" =
      ⟨.errorR .awaitingDecision,
        ⟨1, [], .interrupted, some ⟨⟨"delete_file", []⟩, [.approve], []⟩⟩, []⟩ :=
  invoke_on_interrupted_err (deleteInvoker "X") hitlConfig 5
    ⟨1, [], .interrupted, some ⟨⟨"delete_file", []⟩, [.approve], []⟩⟩ "hi" rfl

/-- C9: `resume` on a thread whose latest checkpoint is not Interrupted fails
with a typed error and leaves the checkpoint exactly as before (same message
log, step counter, status and pending action), and — second spec source — a
decision outside `PendingAction.allowedDecisions` fails with
`ErrDecisionNotAllowed`, also without mutating state. -/
theorem resume_requires_interrupted (ci : CallInvoker) (cfg : RunConfig)
    (fuel : Nat) (cp : Checkpoint) (d : Decision) :
    (cp.status ≠ .interrupted →
      resume ci cfg fuel cp d = ⟨.errorR .notInterrupted, cp, []⟩) ∧
    (∀ pa, cp.status = .interrupted → cp.pending = some pa →
      pa.allowedDecisions.contains d.kind = false →
      resume ci cfg fuel cp d = ⟨.errorR .decisionNotAllowed, cp, []⟩) := by
  constructor
  · intro h
    rw [resume, if_neg h]
  · intro pa hs hp hd
    rw [resume, if_pos hs, hp]
    simp only [hd, Bool.false_eq_true, if_false]

/-- Witness for C9: a Completed checkpoint rejects `resume`, and an
Interrupted checkpoint whose pending action only allows `approve` rejects a
`reject` decision, in both cases leaving the checkpoint untouched. -/
theorem resume_requires_interrupted_w :
    resume (deleteInvoker "X") hitlConfig 5 freshCheckpoint .approve =
      ⟨.errorR .notInterrupted, freshCheckpoint, []⟩ ∧
    resume (deleteInvoker "X") hitlConfig 5
        ⟨1, [], .interrupted, some ⟨⟨"delete_file", []⟩, [.approve], []⟩⟩ (.reject "no") =
      ⟨.errorR .decisionNotAllowed,
        ⟨1, [], .interrupted, some ⟨⟨"delete_file", []⟩, [.approve], []⟩⟩, []⟩ :=
  ⟨(resume_requires_interrupted (deleteInvoker "X") hitlConfig 5 freshCheckpoint .approve).1
      (by decide),
   (resume_requires_interrupted (deleteInvoker "X") hitlConfig 5
      ⟨1, [], .interrupted, some ⟨⟨"delete_file", []⟩, [.approve], []⟩⟩ (.reject "no")).2
      ⟨⟨"delete_file", []⟩, [.approve], []⟩ rfl rfl (by decide)⟩

/-- C1: the approval scenario of spec section 8 — `invoke("Delete file X")`
with `delete_file` gated by the approval policy returns an Interrupted result
whose descriptor identifies the `delete_file` call with its arguments;
resuming with a reject decision carrying a message yields a Completed final
result whose message log contains a tool-result message equal to the
rejection message; and across both steps no `delete_file` call is ever
issued to the CallInvoker. -/
theorem hitl_reject_flow (x m : String) :
    (hitlStep1 x).result = .interruptedR ⟨"delete_file", [("filepath", x)],
        [.approve, .edit, .reject], "Action requires human approval: delete_file"⟩ ∧
    (hitlStep2 x m).result = .final ⟨.assistant, "Done.", []⟩ ∧
    (hitlStep2 x m).cp.status = .completed ∧
    Message.mk .toolResult m [] ∈ (hitlStep2 x m).cp.messages ∧
    noToolNamed "delete_file" ((hitlStep1 x).trace ++ (hitlStep2 x m).trace) = true := by
  refine ⟨rfl, rfl, rfl, ?_, rfl⟩
  show Message.mk .toolResult m [] ∈
    [Message.mk .user ("Delete file " ++ x) [],
     Message.mk .assistant "I will delete the file." [⟨"delete_file", [("filepath", x)]⟩],
     Message.mk .toolResult m [],
     Message.mk .assistant "Done." []]
  exact List.mem_cons_of_mem _ (List.mem_cons_of_mem _ (List.mem_cons_self _ _))

end Engine

namespace Engine

/-- Every log extends itself. -/
theorem logExt_rfl (a : List Message) : LogExtends a a := ⟨[], by simp⟩

/-- Log extension composes. -/
theorem logExt_trans {a b c : List Message} (h1 : LogExtends a b)
    (h2 : LogExtends b c) : LogExtends a c := by
  obtain ⟨t, rfl⟩ := h1
  obtain ⟨u, rfl⟩ := h2
  exact ⟨t ++ u, by simp⟩

/-- Appending a suffix extends the log. -/
theorem logExt_append (a t : List Message) : LogExtends a (a ++ t) := ⟨t, rfl⟩

/-- Processing the tool calls of a model turn only appends messages. -/
theorem processTools_log (ci : CallInvoker) (cfg : RunConfig) :
    ∀ (tcs : List ToolCall) (cp : Checkpoint),
      LogExtends cp.messages (processTools ci cfg cp tcs).cp.messages := by
  intro tcs
  induction tcs with
  | nil => intro cp; exact logExt_rfl _
  | cons tc rest ih =>
    intro cp
    by_cases h : cfg.requiresApproval tc.name = true
    · simp only [processTools, h, if_pos]
      exact logExt_rfl _
    · simp only [processTools, h, Bool.false_eq_true, if_false]
      exact logExt_trans (logExt_append _ _) (ih _)

/-- The step loop only appends messages. -/
theorem runLoop_log (ci : CallInvoker) (cfg : RunConfig) :
    ∀ (fuel : Nat) (cp : Checkpoint) (used : Nat),
      LogExtends cp.messages (runLoop ci cfg fuel cp used).cp.messages := by
  intro fuel
  induction fuel with
  | zero => intro cp used; exact logExt_rfl _
  | succ fuel ih =>
    intro cp used
    simp only [runLoop]
    split
    · rw [exitLimit]
      split <;> exact logExt_rfl _
    · split
      · exact logExt_append _ _
      · split
        · exact logExt_trans (logExt_append _ _) (processTools_log ci cfg _ _)
        · exact logExt_trans (logExt_append _ _)
            (logExt_trans (processTools_log ci cfg _ _) (ih _ _))

/-- Applying a decision only appends messages. -/
theorem applyDecision_log (ci : CallInvoker) (cp : Checkpoint)
    (pa : PendingAction) (d : Decision) :
    LogExtends cp.messages (applyDecision ci cp pa d).1.messages := by
  cases d <;> exact logExt_append _ _

/-- One `invoke` or `resume` only appends messages to the thread's log. -/
theorem applyOp_log (ci : CallInvoker) (cp : Checkpoint) (op : Op) :
    LogExtends cp.messages (applyOp ci cp op).cp.messages := by
  cases op with
  | inv input cfg fuel =>
    show LogExtends cp.messages (invoke ci cfg fuel cp input).cp.messages
    simp only [invoke]
    split
    · exact logExt_rfl _
    · exact logExt_trans (logExt_append _ _) (runLoop_log ci cfg fuel _ 0)
  | res d cfg fuel =>
    show LogExtends cp.messages (resume ci cfg fuel cp d).cp.messages
    simp only [resume]
    split
    · split
      · exact logExt_rfl _
      · split
        · split
          · exact logExt_trans
              (applyDecision_log ci {cp with status := .running, pending := none} _ d)
              (processTools_log ci cfg _ _)
          · exact logExt_trans
              (applyDecision_log ci {cp with status := .running, pending := none} _ d)
              (logExt_trans (processTools_log ci cfg _ _) (runLoop_log ci cfg fuel _ 0))
        · exact logExt_rfl _
    · exact logExt_rfl _

/-- The messages of the next checkpoint are the previous log plus exactly the
messages the step produced. -/
theorem applyOp_messages (ci : CallInvoker) (cp : Checkpoint) (op : Op) :
    (applyOpCp ci cp op).messages = cp.messages ++ producedMsgs ci cp op := by
  obtain ⟨t, ht⟩ := applyOp_log ci cp op
  have hp : producedMsgs ci cp op = t := by
    rw [producedMsgs, applyOpCp]
    rw [show (applyOp ci cp op).cp.messages = cp.messages ++ t from ht]
    exact List.drop_left _ _
  rw [applyOpCp, hp]
  exact ht

/-- C3: for every sequence of `invoke` / `resume` operations on a single
thread, the resulting message log equals the starting log plus the
concatenation, in step order, of the messages produced by each step —
equivalently (taking the sequence one operation longer), the log of
checkpoint `n+1` is the log of checkpoint `n` plus exactly the messages
produced by step `n+1`, with no rewriting or deletion of earlier messages. -/
theorem log_append_only (ci : CallInvoker) :
    ∀ (ops : List Op) (cp : Checkpoint),
      (runSeq ci cp ops).messages = cp.messages ++ stepConcat ci cp ops := by
  intro ops
  induction ops with
  | nil => intro cp; simp [runSeq, stepConcat]
  | cons op ops ih =>
    intro cp
    show (runSeq ci (applyOpCp ci cp op) ops).messages =
      cp.messages ++ (producedMsgs ci cp op ++ stepConcat ci (applyOpCp ci cp op) ops)
    rw [ih (applyOpCp ci cp op), applyOp_messages ci cp op, List.append_assoc]

end Engine

namespace Engine

/-- Unfolding of `processTools` on a gated call. -/
theorem processTools_cons_gated (ci : CallInvoker) (cfg : RunConfig)
    (cp : Checkpoint) (tc : ToolCall) (rest : List ToolCall)
    (h : cfg.requiresApproval tc.name = true) :
    processTools ci cfg cp (tc :: rest) =
      ⟨{cp with status := .interrupted,
                pending := some ⟨tc, cfg.allowedFor tc.name, rest⟩},
       [],
       some ⟨tc.name, tc.args, cfg.allowedFor tc.name,
             "Action requires human approval: " ++ tc.name⟩⟩ := by
  simp only [processTools]
  rw [if_pos h]

/-- Unfolding of `processTools` on an ungated call. -/
theorem processTools_cons_plain (ci : CallInvoker) (cfg : RunConfig)
    (cp : Checkpoint) (tc : ToolCall) (rest : List ToolCall)
    (h : cfg.requiresApproval tc.name = false) :
    processTools ci cfg cp (tc :: rest) =
      ⟨(processTools ci cfg
          {cp with messages := cp.messages ++
            [⟨.toolResult, ci.invokeTool tc.name tc.args, []⟩]} rest).cp,
       .toolCall tc.name tc.args ::
         (processTools ci cfg
           {cp with messages := cp.messages ++
             [⟨.toolResult, ci.invokeTool tc.name tc.args, []⟩]} rest).trace,
       (processTools ci cfg
         {cp with messages := cp.messages ++
           [⟨.toolResult, ci.invokeTool tc.name tc.args, []⟩]} rest).interrupt⟩ := by
  simp only [processTools]
  rw [if_neg (by rw [h]; exact Bool.false_ne_true)]

/-- Processing a model turn's tool calls leaves status and pending action
untouched unless it interrupts, in which case the checkpoint is Interrupted
and the PendingAction is exactly the intercepted call of the descriptor. -/
theorem processTools_pend (ci : CallInvoker) (cfg : RunConfig) :
    ∀ (tcs : List ToolCall) (cp : Checkpoint),
      ((processTools ci cfg cp tcs).interrupt = none →
        (processTools ci cfg cp tcs).cp.status = cp.status ∧
        (processTools ci cfg cp tcs).cp.pending = cp.pending) ∧
      (∀ dsc, (processTools ci cfg cp tcs).interrupt = some dsc →
        (processTools ci cfg cp tcs).cp.status = .interrupted ∧
        ∃ pa, (processTools ci cfg cp tcs).cp.pending = some pa ∧
          pa.call.name = dsc.callIdentity ∧ pa.call.args = dsc.arguments) := by
  intro tcs
  induction tcs with
  | nil =>
    intro cp
    exact ⟨fun _ => ⟨rfl, rfl⟩, fun dsc h => nomatch h⟩
  | cons tc rest ih =>
    intro cp
    cases h : cfg.requiresApproval tc.name
    · rw [processTools_cons_plain ci cfg cp tc rest h]
      exact ⟨fun hnone => (ih _).1 hnone, fun dsc hsome => (ih _).2 dsc hsome⟩
    · rw [processTools_cons_gated ci cfg cp tc rest h]
      constructor
      · intro hnone
        exact nomatch hnone
      · intro dsc hsome
        have hsome' : (⟨tc.name, tc.args, cfg.allowedFor tc.name,
            "Action requires human approval: " ++ tc.name⟩ : InterruptDescriptor) = dsc :=
          Option.some.inj hsome
        subst hsome'
        exact ⟨rfl, ⟨tc, cfg.allowedFor tc.name, rest⟩, rfl, rfl, rfl⟩

/-- The step loop started with no pending action preserves the
pending-iff-Interrupted invariant, and an Interrupted result carries exactly
the intercepted call in the written checkpoint's PendingAction. -/
theorem runLoop_pend (ci : CallInvoker) (cfg : RunConfig) :
    ∀ (fuel : Nat) (cp : Checkpoint) (used : Nat), cp.pending = none →
      pendingOk (runLoop ci cfg fuel cp used).cp ∧
      (∀ dsc, (runLoop ci cfg fuel cp used).result = .interruptedR dsc →
        ∃ pa, (runLoop ci cfg fuel cp used).cp.pending = some pa ∧
          pa.call.name = dsc.callIdentity ∧ pa.call.args = dsc.arguments) := by
  intro fuel
  induction fuel with
  | zero =>
    intro cp used _
    exact ⟨by simp [runLoop, pendingOk], fun dsc h => nomatch h⟩
  | succ fuel ih =>
    intro cp used hpend
    simp only [runLoop]
    split
    · rw [exitLimit]
      split
      · exact ⟨by simp [pendingOk], fun dsc h => nomatch h⟩
      · exact ⟨by simp [pendingOk], fun dsc h => nomatch h⟩
    · split
      · exact ⟨by simp [pendingOk], fun dsc h => nomatch h⟩
      · split
        · rename_i d heq
          obtain ⟨hstat, pa, hpa, h1, h2⟩ := (processTools_pend ci cfg _ _).2 d heq
          constructor
          · rw [pendingOk, hstat, hpa]
            simp
          · intro dsc h
            have h' : RunResult.interruptedR d = RunResult.interruptedR dsc := h
            injection h' with h3
            subst h3
            exact ⟨pa, hpa, h1, h2⟩
        · rename_i heq
          have hp := (processTools_pend ci cfg _ _).1 heq
          exact ih _ (used + 1) (by rw [hp.2]; exact hpend)

/-- Applying a decision preserves status and pending action. -/
theorem applyDecision_pend (ci : CallInvoker) (cp : Checkpoint)
    (pa : PendingAction) (d : Decision) :
    (applyDecision ci cp pa d).1.status = cp.status ∧
    (applyDecision ci cp pa d).1.pending = cp.pending := by
  cases d <;> exact ⟨rfl, rfl⟩

/-- One `invoke` or `resume` preserves the pending-iff-Interrupted invariant,
and an Interrupted result carries exactly the intercepted call. -/
theorem applyOp_pend (ci : CallInvoker) (cp : Checkpoint) (op : Op)
    (hcp : pendingOk cp) :
    pendingOk (applyOp ci cp op).cp ∧
    (∀ dsc, (applyOp ci cp op).result = .interruptedR dsc →
      ∃ pa, (applyOp ci cp op).cp.pending = some pa ∧
        pa.call.name = dsc.callIdentity ∧ pa.call.args = dsc.arguments) := by
  cases op with
  | inv input cfg fuel =>
    have e : applyOp ci cp (Op.inv input cfg fuel) = invoke ci cfg fuel cp input := rfl
    rw [e]
    simp only [invoke]
    split
    · exact ⟨hcp, fun dsc h => nomatch h⟩
    · exact runLoop_pend ci cfg fuel _ 0 rfl
  | res d cfg fuel =>
    have e : applyOp ci cp (Op.res d cfg fuel) = resume ci cfg fuel cp d := rfl
    rw [e]
    simp only [resume]
    split
    · split
      · exact ⟨hcp, fun dsc h => nomatch h⟩
      · split
        · split
          · rename_i dsc2 heq
            obtain ⟨hstat2, pa2, hpa2, h1, h2⟩ := (processTools_pend ci cfg _ _).2 dsc2 heq
            constructor
            · rw [pendingOk, hstat2, hpa2]
              simp
            · intro dsc h
              have h' : RunResult.interruptedR dsc2 = RunResult.interruptedR dsc := h
              injection h' with h3
              subst h3
              exact ⟨pa2, hpa2, h1, h2⟩
          · rename_i heq
            have hp := (processTools_pend ci cfg _ _).1 heq
            refine runLoop_pend ci cfg fuel _ 0 ?_
            rw [hp.2]
            exact (applyDecision_pend ci _ _ d).2
        · exact ⟨hcp, fun dsc h => nomatch h⟩
    · exact ⟨hcp, fun dsc h => nomatch h⟩

/-- The invariant holds on every checkpoint reachable by a sequence of
operations from a state satisfying it. -/
theorem runSeq_pendingOk (ci : CallInvoker) :
    ∀ (ops : List Op) (cp : Checkpoint), pendingOk cp →
      pendingOk (runSeq ci cp ops) := by
  intro ops
  induction ops with
  | nil => intro cp h; exact h
  | cons op ops ih => intro cp h; exact ih _ (applyOp_pend ci cp op h).1

/-- C4: in every reachable checkpoint of a thread, a PendingAction is present
if and only if the status is Interrupted (so no Completed, Failed or Running
checkpoint carries one), and whenever an operation returns an Interrupted
result, the checkpoint it wrote is Interrupted and its PendingAction is
exactly the intercepted call named by the descriptor. -/
theorem pending_iff_interrupted (ci : CallInvoker) (ops : List Op) (op : Op) :
    pendingOk (runSeq ci freshCheckpoint ops) ∧
    (match (applyOp ci (runSeq ci freshCheckpoint ops) op).result with
     | .interruptedR dsc =>
         (applyOp ci (runSeq ci freshCheckpoint ops) op).cp.status = .interrupted ∧
         ∃ pa, (applyOp ci (runSeq ci freshCheckpoint ops) op).cp.pending = some pa ∧
           pa.call.name = dsc.callIdentity ∧ pa.call.args = dsc.arguments
     | _ => True) := by
  have h0 : pendingOk freshCheckpoint := by simp [pendingOk, freshCheckpoint]
  have hreach := runSeq_pendingOk ci ops freshCheckpoint h0
  refine ⟨hreach, ?_⟩
  have hstep := applyOp_pend ci (runSeq ci freshCheckpoint ops) op hreach
  cases hres : (applyOp ci (runSeq ci freshCheckpoint ops) op).result with
  | final out => exact trivial
  | errorR e => exact trivial
  | interruptedR dsc =>
    obtain ⟨pa, hpa, h1, h2⟩ := hstep.2 dsc hres
    exact ⟨hstep.1.mp (by rw [hpa]; rfl), pa, hpa, h1, h2⟩

end Engine

namespace Engine

/-- Tool processing never issues a model call. -/
theorem processTools_noModel (ci : CallInvoker) (cfg : RunConfig) :
    ∀ (tcs : List ToolCall) (cp : Checkpoint),
      modelCalls (processTools ci cfg cp tcs).trace = 0 := by
  intro tcs
  induction tcs with
  | nil => intro cp; rfl
  | cons tc rest ih =>
    intro cp
    cases h : cfg.requiresApproval tc.name
    · rw [processTools_cons_plain ci cfg cp tc rest h]
      show modelCalls (.toolCall tc.name tc.args :: _) = 0
      rw [modelCalls, List.countP_cons]
      simpa [modelCalls] using ih _
    · rw [processTools_cons_gated ci cfg cp tc rest h]
      rfl

/-- `modelCalls` distributes over trace concatenation. -/
theorem modelCalls_append (a b : List Issued) :
    modelCalls (a ++ b) = modelCalls a + modelCalls b :=
  List.countP_append _ _ _

/-- A model call at the head of a trace adds one to the count. -/
theorem modelCalls_cons_model (h : List Message) (tr : List Issued) :
    modelCalls (.modelCall h :: tr) = modelCalls tr + 1 := by
  simp [modelCalls, List.countP_cons]

/-- With a run call limit of `N`, the step loop entered having already used
`used` model calls issues at most `N - used` more — in particular the
`(N+1)`-th model call of a run is never issued. -/
theorem runLoop_calls_le (ci : CallInvoker) (N : Nat) (b : ExitBehavior)
    (pol : List (String × ApprovalRule)) :
    ∀ (fuel : Nat) (cp : Checkpoint) (used : Nat),
      modelCalls (runLoop ci ⟨some N, b, pol⟩ fuel cp used).trace ≤ N - used := by
  intro fuel
  induction fuel with
  | zero => intro cp used; exact Nat.zero_le _
  | succ fuel ih =>
    intro cp used
    by_cases hN : N ≤ used
    · have hl : limitReached ⟨some N, b, pol⟩ used = true := by
        simp [limitReached, hN]
      simp only [runLoop, hl, if_pos]
      rw [exitLimit]
      split <;> exact Nat.zero_le _
    · have hl : limitReached ⟨some N, b, pol⟩ used = false := by
        simp [limitReached]
        omega
      simp only [runLoop, hl, Bool.false_eq_true, if_false]
      split
      · show modelCalls [.modelCall cp.messages] ≤ N - used
        rw [modelCalls_cons_model]
        rw [show modelCalls [] = 0 from rfl]
        omega
      · split
        · show modelCalls (.modelCall cp.messages :: _) ≤ N - used
          rw [modelCalls_cons_model, processTools_noModel]
          omega
        · show modelCalls (.modelCall cp.messages :: (_ ++ _)) ≤ N - used
          rw [modelCalls_cons_model, modelCalls_append, processTools_noModel]
          have hr := ih (processTools ci (⟨some N, b, pol⟩ : RunConfig)
            {cp with messages := cp.messages ++
              [⟨.assistant, (ci.invokeModel cp.messages).content,
                (ci.invokeModel cp.messages).toolCalls⟩], step := cp.step + 1}
            (ci.invokeModel cp.messages).toolCalls).cp (used + 1)
          omega

end Engine

namespace Engine

/-- Assistant-message count after appending one assistant message and one
tool-result message. -/
theorem assistantCount_append_turn (ms : List Message) (c : String)
    (tcs : List ToolCall) (out : String) :
    assistantCount (ms ++ [⟨.assistant, c, tcs⟩] ++ [⟨.toolResult, out, []⟩]) =
      assistantCount ms + 1 := by
  simp [assistantCount, List.countP_append, List.countP_cons]

/-- Unfolding of `exitLimit` for the `end` behavior. -/
theorem exitLimit_endB (cfg : RunConfig) (cp : Checkpoint)
    (h : cfg.limitExitBehavior = .endB) :
    exitLimit cfg cp =
      ⟨.final (lastAssistant cp), {cp with status := .completed, pending := none}, []⟩ := by
  rw [exitLimit, h]

/-- Unfolding of `exitLimit` for the `error` behavior. -/
theorem exitLimit_errB (cfg : RunConfig) (cp : Checkpoint)
    (h : cfg.limitExitBehavior = .errB) :
    exitLimit cfg cp =
      ⟨.errorR .limitExceeded, {cp with status := .failed, pending := none}, []⟩ := by
  rw [exitLimit, h]

/-- On the canonical scenario needing `N + 1` model calls, the step loop with
run limit `N` issues exactly `N - used` further model calls and then follows
the configured exit behavior. -/
theorem needy_runLoop (N : Nat) (b : ExitBehavior) :
    ∀ (fuel : Nat) (cp : Checkpoint) (used : Nat),
      assistantCount cp.messages = used → used ≤ N → N - used < fuel →
      modelCalls (runLoop (needyInvoker N) (limitConfig N b) fuel cp used).trace = N - used ∧
      (b = .endB → (runLoop (needyInvoker N) (limitConfig N b) fuel cp used).cp.status = .completed) ∧
      (b = .errB → (runLoop (needyInvoker N) (limitConfig N b) fuel cp used).cp.status = .failed ∧
        (runLoop (needyInvoker N) (limitConfig N b) fuel cp used).result = .errorR .limitExceeded) := by
  intro fuel
  induction fuel with
  | zero =>
    intro cp used _ _ hf
    omega
  | succ fuel ih =>
    intro cp used hcount hle hf
    by_cases hN : N ≤ used
    · have hl : limitReached (limitConfig N b) used = true := by
        simp [limitReached, limitConfig, hN]
      simp only [runLoop, hl, if_pos]
      cases b
      · rw [exitLimit_endB _ _ rfl]
        refine ⟨?_, ⟨fun _ => rfl, fun h => absurd h (by decide)⟩⟩
        rw [show modelCalls [] = 0 from rfl]
        omega
      · rw [exitLimit_errB _ _ rfl]
        refine ⟨?_, ⟨fun h => absurd h (by decide), fun _ => ⟨rfl, rfl⟩⟩⟩
        rw [show modelCalls [] = 0 from rfl]
        omega
    · have hl : limitReached (limitConfig N b) used = false := by
        simp [limitReached, limitConfig]
        omega
      have hmodel : (needyInvoker N).invokeModel cp.messages =
          ⟨"working", [⟨"noop", []⟩]⟩ := by
        simp only [needyInvoker]
        rw [if_pos (by rw [hcount]; omega)]
      simp only [runLoop, hl, Bool.false_eq_true, if_false, hmodel]
      rw [show (⟨"working", [⟨"noop", []⟩]⟩ : ModelResult).toolCalls.isEmpty = false from rfl]
      simp only [Bool.false_eq_true, if_false]
      rw [processTools_cons_plain _ _ _ _ _ (by rfl)]
      simp only [processTools]
      have hrec := ih
        (⟨cp.step + 1,
          cp.messages ++ [⟨.assistant, "working", [⟨"noop", []⟩]⟩] ++
            [⟨.toolResult, (needyInvoker N).invokeTool "noop" [], []⟩],
          cp.status, cp.pending⟩ : Checkpoint)
        (used + 1)
        (by rw [show (⟨cp.step + 1,
            cp.messages ++ [⟨.assistant, "working", [⟨"noop", []⟩]⟩] ++
              [⟨.toolResult, (needyInvoker N).invokeTool "noop" [], []⟩],
            cp.status, cp.pending⟩ : Checkpoint).messages =
            cp.messages ++ [⟨.assistant, "working", [⟨"noop", []⟩]⟩] ++
              [⟨.toolResult, (needyInvoker N).invokeTool "noop" [], []⟩] from rfl,
          assistantCount_append_turn, hcount])
        (by omega) (by omega)
      refine ⟨?_, fun hb => hrec.2.1 hb, fun hb => hrec.2.2 hb⟩
      rw [modelCalls_cons_model]
      rw [show (Issued.toolCall "noop" [] :: [] : List Issued) ++
        (runLoop (needyInvoker N) (limitConfig N b) fuel
          (⟨cp.step + 1,
            cp.messages ++ [⟨.assistant, "working", [⟨"noop", []⟩]⟩] ++
              [⟨.toolResult, (needyInvoker N).invokeTool "noop" [], []⟩],
            cp.status, cp.pending⟩ : Checkpoint)
          (used + 1)).trace =
        (Issued.toolCall "noop" [] :: [] : List Issued) ++
        (runLoop (needyInvoker N) (limitConfig N b) fuel
          (⟨cp.step + 1,
            cp.messages ++ [⟨.assistant, "working", [⟨"noop", []⟩]⟩] ++
              [⟨.toolResult, (needyInvoker N).invokeTool "noop" [], []⟩],
            cp.status, cp.pending⟩ : Checkpoint)
          (used + 1)).trace from rfl]
      rw [modelCalls_append]
      rw [show modelCalls (Issued.toolCall "noop" [] :: []) = 0 from rfl]
      rw [hrec.1]
      omega

end Engine

namespace Engine

/-- With no call limit, the canonical scenario with goal `N` issues exactly
`N - c + 1` model calls from a state with `c` assistant messages: it indeed
requires `N + 1` model calls from the start. -/
theorem needy_unlimited (N : Nat) :
    ∀ (fuel : Nat) (cp : Checkpoint) (used c : Nat),
      assistantCount cp.messages = c → c ≤ N → N - c < fuel →
      modelCalls (runLoop (needyInvoker N) (⟨none, .endB, []⟩ : RunConfig)
        fuel cp used).trace = N - c + 1 := by
  intro fuel
  induction fuel with
  | zero =>
    intro cp used c _ _ hf
    omega
  | succ fuel ih =>
    intro cp used c hcount hle hf
    have hl : limitReached (⟨none, .endB, []⟩ : RunConfig) used = false := rfl
    simp only [runLoop, hl, Bool.false_eq_true, if_false]
    by_cases hc : c < N
    · have hmodel : (needyInvoker N).invokeModel cp.messages =
          ⟨"working", [⟨"noop", []⟩]⟩ := by
        simp only [needyInvoker]
        rw [if_pos (by rw [hcount]; omega)]
      simp only [hmodel]
      rw [show (⟨"working", [⟨"noop", []⟩]⟩ : ModelResult).toolCalls.isEmpty = false from rfl]
      simp only [Bool.false_eq_true, if_false]
      rw [processTools_cons_plain _ _ _ _ _ (by rfl)]
      simp only [processTools]
      have hrec := ih
        (⟨cp.step + 1,
          cp.messages ++ [⟨.assistant, "working", [⟨"noop", []⟩]⟩] ++
            [⟨.toolResult, (needyInvoker N).invokeTool "noop" [], []⟩],
          cp.status, cp.pending⟩ : Checkpoint)
        (used + 1) (c + 1)
        (by rw [show (⟨cp.step + 1,
            cp.messages ++ [⟨.assistant, "working", [⟨"noop", []⟩]⟩] ++
              [⟨.toolResult, (needyInvoker N).invokeTool "noop" [], []⟩],
            cp.status, cp.pending⟩ : Checkpoint).messages =
            cp.messages ++ [⟨.assistant, "working", [⟨"noop", []⟩]⟩] ++
              [⟨.toolResult, (needyInvoker N).invokeTool "noop" [], []⟩] from rfl,
          assistantCount_append_turn, hcount])
        (by omega) (by omega)
      rw [modelCalls_cons_model]
      rw [show (Issued.toolCall "noop" [] :: [] : List Issued) ++
        (runLoop (needyInvoker N) (⟨none, .endB, []⟩ : RunConfig) fuel
          (⟨cp.step + 1,
            cp.messages ++ [⟨.assistant, "working", [⟨"noop", []⟩]⟩] ++
              [⟨.toolResult, (needyInvoker N).invokeTool "noop" [], []⟩],
            cp.status, cp.pending⟩ : Checkpoint)
          (used + 1)).trace =
        (Issued.toolCall "noop" [] :: [] : List Issued) ++
        (runLoop (needyInvoker N) (⟨none, .endB, []⟩ : RunConfig) fuel
          (⟨cp.step + 1,
            cp.messages ++ [⟨.assistant, "working", [⟨"noop", []⟩]⟩] ++
              [⟨.toolResult, (needyInvoker N).invokeTool "noop" [], []⟩],
            cp.status, cp.pending⟩ : Checkpoint)
          (used + 1)).trace from rfl]
      rw [modelCalls_append]
      rw [show modelCalls (Issued.toolCall "noop" [] :: []) = 0 from rfl]
      rw [hrec]
      omega
    · have hmodel : (needyInvoker N).invokeModel cp.messages =
          ⟨"final answer", []⟩ := by
        simp only [needyInvoker]
        rw [if_neg (by rw [hcount]; omega)]
      simp only [hmodel]
      rw [show (⟨"final answer", []⟩ : ModelResult).toolCalls.isEmpty = true from rfl]
      rw [if_pos rfl]
      rw [modelCalls_cons_model]
      rw [show modelCalls [] = 0 from rfl]
      omega

/-- C5: with `runCallLimit = N`, a scenario that requires `N + 1` model calls
(witnessed by the unlimited run issuing exactly `N + 1`) ends or interrupts
at call `N` exactly — its limited run issues exactly `N` model calls, and for
every invoker whatsoever at most `N` are ever issued, so the `(N+1)`-th model
call never happens — and the configured exit behavior governs the outcome:
`end` completes the run gracefully while `error` aborts it as Failed with
`LimitExceededError`. -/
theorem run_call_limit_exact (N fuel : Nat) (b : ExitBehavior)
    (ci : CallInvoker) (pol : List (String × ApprovalRule)) (input : String)
    (hfuel : N < fuel) :
    modelCalls (invoke (needyInvoker N) (⟨none, .endB, []⟩ : RunConfig)
        fuel freshCheckpoint input).trace = N + 1 ∧
    modelCalls (invoke ci ⟨some N, b, pol⟩ fuel freshCheckpoint input).trace ≤ N ∧
    modelCalls (invoke (needyInvoker N) (limitConfig N b)
        fuel freshCheckpoint input).trace = N ∧
    (b = .endB → (invoke (needyInvoker N) (limitConfig N b)
        fuel freshCheckpoint input).cp.status = .completed) ∧
    (b = .errB → (invoke (needyInvoker N) (limitConfig N b)
        fuel freshCheckpoint input).cp.status = .failed ∧
      (invoke (needyInvoker N) (limitConfig N b)
        fuel freshCheckpoint input).result = .errorR .limitExceeded) := by
  have hinv : ∀ (cfg : RunConfig) (ci' : CallInvoker),
      invoke ci' cfg fuel freshCheckpoint input =
        runLoop ci' cfg fuel ⟨0, [⟨.user, input, []⟩], .running, none⟩ 0 := by
    intro cfg ci'
    rw [invoke, if_neg (by decide)]
    rfl
  rw [hinv, hinv, hinv]
  have h1 := needy_unlimited N fuel ⟨0, [⟨.user, input, []⟩], .running, none⟩ 0 0
    rfl (Nat.zero_le N) (by omega)
  have h2 := runLoop_calls_le ci N b pol fuel ⟨0, [⟨.user, input, []⟩], .running, none⟩ 0
  have h3 := needy_runLoop N b fuel ⟨0, [⟨.user, input, []⟩], .running, none⟩ 0
    rfl (Nat.zero_le N) (by omega)
  exact ⟨by omega, by omega, by rw [h3.1]; omega, h3.2.1, h3.2.2⟩

/-- Witness for C5: with `runCallLimit = 2` the canonical scenario requiring
three model calls issues exactly two. -/
theorem run_call_limit_exact_w :
    modelCalls (invoke (needyInvoker 2) (limitConfig 2 .endB)
        4 freshCheckpoint "go").trace = 2 :=
  (run_call_limit_exact 2 4 .endB (needyInvoker 2) [] "go" (by omega)).2.2.1

end Engine

namespace Engine

/-- Runs from two stores agreeing on thread `a` stay in agreement on `a` when
one processes an interleaving and the other only thread `a`'s operations. -/
theorem runTOps_filter (ci : CallInvoker) (a : String) :
    ∀ (ops : List TOp) (st st' : Store), st a = st' a →
      runTOps ci st ops a =
        runTOps ci st' (ops.filter fun t => t.tid == a) a := by
  intro ops
  induction ops with
  | nil => intro st st' h; exact h
  | cons t ts ih =>
    intro st st' h
    by_cases ht : t.tid = a
    · have hf : (t.tid == a) = true := by simp [ht]
      show runTOps ci (applyTOp ci st t) ts a = _
      rw [List.filter_cons, if_pos hf]
      show _ = runTOps ci (applyTOp ci st' t) (ts.filter fun t => t.tid == a) a
      refine ih (applyTOp ci st t) (applyTOp ci st' t) ?_
      show (if a = t.tid then (applyOp ci (st t.tid) t.op).cp else st a) =
        (if a = t.tid then (applyOp ci (st' t.tid) t.op).cp else st' a)
      rw [if_pos ht.symm, if_pos ht.symm, ht, h]
    · have hf : (t.tid == a) = false := by simp [ht]
      show runTOps ci (applyTOp ci st t) ts a = _
      rw [List.filter_cons, if_neg (by rw [hf]; exact Bool.false_ne_true)]
      refine ih (applyTOp ci st t) st' ?_
      show (if a = t.tid then (applyOp ci (st t.tid) t.op).cp else st a) = st' a
      rw [if_neg (fun hh => ht hh.symm), h]

/-- C2: thread isolation — under any serialized interleaving of `invoke` /
`resume` operations addressed to different threads (the functional model of
concurrent callers), the checkpoint of thread `a` — hence its message log and
the model-visible history every response is computed from — is exactly what
it would be had only thread `a`'s own operations run: content sent only to
other threads never appears in, or influences, thread `a`. -/
theorem thread_isolation (ci : CallInvoker) (ops : List TOp) (a : String) :
    runTOps ci emptyStore ops a =
      runTOps ci emptyStore (ops.filter fun t => t.tid == a) a :=
  runTOps_filter ci a ops emptyStore emptyStore rfl

end Engine
